import Mathlib

/-!
# Verification of the binance-collector ingestion-and-storage pipeline

Shallow embedding of the core of `binance_collector`:

* `StorageEngine.write` / `read` / `maintain_hot_snapshot` / `read_hot`
  (`src/binance_collector/storage/engine.py`),
* the trade cursor logic of `TradesCollector.collect_symbol` and
  `TradesCollector._fetch_trades` (`src/binance_collector/collectors/trades.py`),
* the order-book level aggregation `OrderBookCollector._aggregate_levels`
  (`src/binance_collector/collectors/orderbook.py`).

A stored trade row is modelled by the columns the storage configuration
touches (`agg_trade_id`, `timestamp`) plus a payload column (`price`) that
distinguishes row versions.  Timestamps are epoch integers; prices are exact
rationals standing for the numeric column values.  A parquet dataset file is
an optional list of rows (`none` = the file does not exist).
-/

/-- A trade row as stored by the trades pipeline: the dedup column
`agg_trade_id`, the first sort column `timestamp`, and `price` as the
representative payload column carried through merge/dedup/sort. -/
structure Trade where
  aggTradeId : Int
  timestamp : Int
  price : ℚ
deriving DecidableEq, Repr

/-- The row order used by `sort_values(['timestamp', 'agg_trade_id'])`:
lexicographic on `(timestamp, agg_trade_id)`. -/
def tradeLe (a b : Trade) : Prop :=
  a.timestamp < b.timestamp ∨ (a.timestamp = b.timestamp ∧ a.aggTradeId ≤ b.aggTradeId)

instance : DecidableRel tradeLe := fun a b => by
  unfold tradeLe; exact inferInstance

instance : IsTotal Trade tradeLe :=
  ⟨by intro a b; unfold tradeLe; omega⟩

instance : IsTrans Trade tradeLe :=
  ⟨by intro a b c; unfold tradeLe; omega⟩

/-- `combined.sort_values(['timestamp', 'agg_trade_id'])`: sorting by the
configured sort columns.  (After dedup on `agg_trade_id` the sort keys are
pairwise distinct, so any comparison sort yields this result.) -/
def sortTrades (l : List Trade) : List Trade :=
  List.insertionSort tradeLe l

/-- The dedup-key values (`agg_trade_id` column) of a list of rows. -/
def keysOf (l : List Trade) : List Int :=
  l.map Trade.aggTradeId

/-- `combined.drop_duplicates(subset=['agg_trade_id'], keep='last')`:
a row is kept iff no later row has the same `agg_trade_id`; kept rows stay
in their original relative order. -/
def dropDupKeepLast : List Trade → List Trade
  | [] => []
  | r :: rs =>
      if rs.any (fun x => x.aggTradeId == r.aggTradeId) then dropDupKeepLast rs
      else r :: dropDupKeepLast rs

/-- Outcome of one `StorageEngine.write` call, as seen by the caller. -/
inductive WriteOutcome where
  | wrote (rows : List Trade)      -- returned the output path after persisting `rows`
  | returnedNone                   -- Python `return None` (the empty-batch early return)
  | raisedError (msg : String)     -- an exception propagated to the caller
deriving DecidableEq, Repr

/-- `StorageEngine.write(df, 'trades', symbol, schema=TRADE_SCHEMA,
dedup_columns=['agg_trade_id'], sort_columns=['timestamp', 'agg_trade_id'])`
acting on the dataset file `store`, returning the new file state and the
call outcome.  Rows are modelled already well-typed, so
`validate_dataframe` succeeds and the `raisedError` channel is never taken;
the empty-batch check precedes every other step, exactly as in the source. -/
def writeTradesFull (store : Option (List Trade)) (df : List Trade) :
    Option (List Trade) × WriteOutcome :=
  if df.isEmpty then (store, WriteOutcome.returnedNone)
  else
    match store with
    | some existing =>
        let ds := sortTrades (dropDupKeepLast (existing ++ df))
        (some ds, WriteOutcome.wrote ds)
    | none =>
        let ds := sortTrades df
        (some ds, WriteOutcome.wrote ds)

/-- The dataset file state after `StorageEngine.write` (trades configuration). -/
def writeTrades (store : Option (List Trade)) (df : List Trade) : Option (List Trade) :=
  (writeTradesFull store df).1

/-- `StorageEngine.read` without a time filter: the stored rows, or an empty
frame when the file does not exist. -/
def readTrades (store : Option (List Trade)) : List Trade :=
  store.getD []

/-- `DataFrame.tail(w)` for a window `w ≥ 0`: the last `min w length` rows. -/
def listTail (l : List Trade) (w : Nat) : List Trade :=
  l.drop (l.length - w)

/-- The two files the engine keeps for one `(data_type, symbol)` key:
`{symbol}.parquet` and `{symbol}_hot.parquet`. -/
structure DatasetFiles where
  main : Option (List Trade)
  hot : Option (List Trade)
deriving DecidableEq, Repr

/-- `StorageEngine.maintain_hot_snapshot(data_type, symbol, window_size)`:
returns early when the main file is missing; otherwise reads the main file
and overwrites the hot file with its last `window_size` rows. -/
def maintainHotSnapshot (fs : DatasetFiles) (windowSize : Nat) : DatasetFiles :=
  match fs.main with
  | none => fs
  | some rows => { main := fs.main, hot := some (listTail rows windowSize) }

/-- `StorageEngine.read_hot`: the hot file's rows, empty if it does not exist. -/
def readHot (fs : DatasetFiles) : List Trade :=
  fs.hot.getD []

/-- `StorageEngine.read` applied to the main file of a dataset key. -/
def readMain (fs : DatasetFiles) : List Trade :=
  fs.main.getD []

/-- Sample rows used by concrete witnesses. -/
def sampleT1 : Trade := ⟨1, 100, 5⟩

def sampleT2 : Trade := ⟨2, 110, 6⟩

def sampleT3 : Trade := ⟨3, 120, 7⟩

/-- C4: after `maintain_hot_snapshot(key, W)` on an existing dataset of `N`
rows, `read_hot(key)` returns exactly the last `min W N` rows of
`read(key)`, in the same order. -/
theorem hot_snapshot_correct (fs : DatasetFiles) (w : Nat) (rows : List Trade)
    (h : fs.main = some rows) :
    readHot (maintainHotSnapshot fs w) =
      (readMain fs).drop ((readMain fs).length - w) ∧
    (readHot (maintainHotSnapshot fs w)).length = min w (readMain fs).length := by
  obtain ⟨m, ht⟩ := fs
  simp only at h
  subst h
  refine ⟨by simp [readHot, maintainHotSnapshot, readMain, listTail], ?_⟩
  simp [readHot, maintainHotSnapshot, readMain, listTail]
  omega

/-- C10: when the main dataset file does not exist, `maintain_hot_snapshot`
is a no-op: the hot file is not created and a pre-existing hot file is left
unchanged. -/
theorem maintain_hot_noop_when_main_absent (fs : DatasetFiles) (w : Nat)
    (h : fs.main = none) :
    maintainHotSnapshot fs w = fs := by
  unfold maintainHotSnapshot
  rw [h]

/-- Witness for C4 at a concrete two-row dataset and window 1. -/
theorem hot_snapshot_correct_witness :
    (⟨some [sampleT1, sampleT2], none⟩ : DatasetFiles).main = some [sampleT1, sampleT2] ∧
    (readHot (maintainHotSnapshot ⟨some [sampleT1, sampleT2], none⟩ 1) =
      (readMain ⟨some [sampleT1, sampleT2], none⟩).drop
        ((readMain ⟨some [sampleT1, sampleT2], none⟩).length - 1) ∧
    (readHot (maintainHotSnapshot ⟨some [sampleT1, sampleT2], none⟩ 1)).length =
      min 1 (readMain ⟨some [sampleT1, sampleT2], none⟩).length) :=
  ⟨rfl, hot_snapshot_correct _ 1 _ rfl⟩

/-- Witness for C10 at a concrete state with an absent main file and a
pre-existing hot file. -/
theorem maintain_hot_noop_witness :
    (⟨none, some [sampleT3]⟩ : DatasetFiles).main = none ∧
    maintainHotSnapshot ⟨none, some [sampleT3]⟩ 5 = ⟨none, some [sampleT3]⟩ :=
  ⟨rfl, maintain_hot_noop_when_main_absent _ 5 rfl⟩

/-! ## Properties of `drop_duplicates(keep='last')` -/

/-- The deduplicated list is a sublist of the input (kept rows in order). -/
theorem dropDupKeepLast_sublist (l : List Trade) : (dropDupKeepLast l).Sublist l := by
  induction l with
  | nil => simp [dropDupKeepLast]
  | cons a l ih =>
      unfold dropDupKeepLast
      by_cases hc : l.any (fun x => x.aggTradeId == a.aggTradeId) = true
      · rw [if_pos hc]
        exact ih.cons a
      · rw [if_neg hc]
        exact ih.cons₂ a

theorem mem_of_mem_dropDupKeepLast {r : Trade} {l : List Trade}
    (h : r ∈ dropDupKeepLast l) : r ∈ l :=
  (dropDupKeepLast_sublist l).mem h

/-- After dedup, the `agg_trade_id` values are pairwise distinct. -/
theorem nodup_keys_dropDupKeepLast (l : List Trade) :
    (keysOf (dropDupKeepLast l)).Nodup := by
  induction l with
  | nil => simp [dropDupKeepLast, keysOf]
  | cons a l ih =>
      unfold dropDupKeepLast
      by_cases hc : l.any (fun x => x.aggTradeId == a.aggTradeId) = true
      · rw [if_pos hc]
        exact ih
      · rw [if_neg hc]
        simp only [keysOf, List.map_cons, List.nodup_cons]
        constructor
        · intro hmem
          obtain ⟨x, hx, hkey⟩ := List.mem_map.mp hmem
          exact hc (List.any_eq_true.mpr
            ⟨x, mem_of_mem_dropDupKeepLast hx, by simp [hkey]⟩)
        · simpa [keysOf] using ih

/-- Membership in the dedup output: `r` survives iff it is the last row of
the input whose `agg_trade_id` equals `r`'s. -/
theorem mem_dropDupKeepLast_iff {r : Trade} {l : List Trade} :
    r ∈ dropDupKeepLast l ↔
      (l.filter (fun x => x.aggTradeId == r.aggTradeId)).getLast? = some r := by
  induction l with
  | nil => simp [dropDupKeepLast]
  | cons a l ih =>
      unfold dropDupKeepLast
      by_cases hc : l.any (fun x => x.aggTradeId == a.aggTradeId) = true
      · rw [if_pos hc]
        by_cases hp : a.aggTradeId = r.aggTradeId
        · have hfil : l.filter (fun x => x.aggTradeId == r.aggTradeId) ≠ [] := by
            obtain ⟨x, hxl, hx⟩ := List.any_eq_true.mp hc
            refine List.ne_nil_of_mem (a := x) (List.mem_filter.mpr ⟨hxl, ?_⟩)
            simp only [beq_iff_eq] at hx ⊢
            omega
          obtain ⟨b, l2, hb⟩ := List.exists_cons_of_ne_nil hfil
          rw [ih, List.filter_cons_of_pos (by simp [hp]), hb, List.getLast?_cons_cons, ← hb]
        · rw [ih, List.filter_cons_of_neg (by simp [hp])]
      · rw [if_neg hc]
        have hnone : ∀ x ∈ l, x.aggTradeId ≠ a.aggTradeId := by
          intro x hx hkey
          exact hc (List.any_eq_true.mpr ⟨x, hx, by simp [hkey]⟩)
        by_cases hp : a.aggTradeId = r.aggTradeId
        · have hfil : l.filter (fun x => x.aggTradeId == r.aggTradeId) = [] := by
            rw [List.filter_eq_nil_iff]
            intro x hx
            simp only [beq_iff_eq]
            intro hkey
            exact hnone x hx (by omega)
          rw [List.filter_cons_of_pos (by simp [hp]), hfil, List.getLast?_singleton]
          simp only [List.mem_cons, Option.some.injEq]
          constructor
          · rintro (rfl | hmem)
            · rfl
            · exact absurd hp.symm (hnone r (mem_of_mem_dropDupKeepLast hmem))
          · rintro rfl
            exact Or.inl rfl
        · have hra : r ≠ a := by
            intro hra
            exact hp (by rw [hra])
          rw [List.filter_cons_of_neg (by simp [hp]), List.mem_cons]
          constructor
          · rintro (h | hmem)
            · exact absurd h hra
            · exact ih.mp hmem
          · intro hlast
            exact Or.inr (ih.mpr hlast)

/-- In a list with pairwise-distinct keys, every member is the last (indeed
only) row carrying its own key. -/
theorem getLast_filter_of_mem :
    ∀ (l : List Trade) (r : Trade), (keysOf l).Nodup → r ∈ l →
      (l.filter (fun x => x.aggTradeId == r.aggTradeId)).getLast? = some r := by
  intro l
  induction l with
  | nil =>
      intro r _ h
      cases h
  | cons a l ih =>
      intro r hnd hmem
      simp only [keysOf, List.map_cons, List.nodup_cons] at hnd
      rcases List.mem_cons.mp hmem with rfl | hmem'
      · have hfil : l.filter (fun x => x.aggTradeId == r.aggTradeId) = [] := by
          rw [List.filter_eq_nil_iff]
          intro x hx
          simp only [beq_iff_eq]
          intro hkey
          exact hnd.1 (List.mem_map.mpr ⟨x, hx, hkey⟩)
        rw [List.filter_cons_of_pos (by simp), hfil, List.getLast?_singleton]
      · have hkey : r.aggTradeId ≠ a.aggTradeId := by
          intro hkey
          exact hnd.1 (List.mem_map.mpr ⟨r, hmem', hkey⟩)
        rw [List.filter_cons_of_neg (by simp only [beq_iff_eq]; omega)]
        exact ih r hnd.2 hmem'

theorem mem_iff_getLast_filter {r : Trade} {l : List Trade}
    (hnd : (keysOf l).Nodup) :
    r ∈ l ↔ (l.filter (fun x => x.aggTradeId == r.aggTradeId)).getLast? = some r :=
  ⟨getLast_filter_of_mem l r hnd,
   fun h => (List.mem_filter.mp (List.mem_of_getLast?_eq_some h)).1⟩

/-- With pairwise-distinct keys, a key that occurs occurs in exactly one row. -/
theorem countP_key_eq_one {l : List Trade} {k : Int}
    (hnd : (keysOf l).Nodup) (hk : k ∈ keysOf l) :
    l.countP (fun x => x.aggTradeId == k) = 1 := by
  have hmap : l.countP (fun x => x.aggTradeId == k) = (keysOf l).count k := by
    simp only [keysOf, List.count, List.countP_map]
    rfl
  rw [hmap]
  exact List.count_eq_one_of_mem hnd hk

/-! ## Properties of the merge/dedup/sort write path -/

theorem sortTrades_perm (l : List Trade) : (sortTrades l).Perm l :=
  List.perm_insertionSort tradeLe l

theorem sortTrades_sorted (l : List Trade) : List.Sorted tradeLe (sortTrades l) :=
  List.sorted_insertionSort tradeLe l

theorem keysOf_perm {l1 l2 : List Trade} (h : l1.Perm l2) :
    (keysOf l1).Perm (keysOf l2) :=
  h.map Trade.aggTradeId

theorem keysOf_append (l1 l2 : List Trade) :
    keysOf (l1 ++ l2) = keysOf l1 ++ keysOf l2 :=
  List.map_append Trade.aggTradeId l1 l2

/-- A key occurs in the dedup output iff it occurs in the input. -/
theorem mem_keys_dropDupKeepLast {k : Int} {l : List Trade} :
    k ∈ keysOf (dropDupKeepLast l) ↔ k ∈ keysOf l := by
  induction l with
  | nil => simp [dropDupKeepLast]
  | cons a l ih =>
      unfold dropDupKeepLast
      by_cases hc : l.any (fun x => x.aggTradeId == a.aggTradeId) = true
      · rw [if_pos hc, ih]
        simp only [keysOf, List.map_cons, List.mem_cons]
        constructor
        · intro h
          exact Or.inr h
        · rintro (rfl | h)
          · obtain ⟨x, hxl, hx⟩ := List.any_eq_true.mp hc
            simp only [beq_iff_eq] at hx
            exact List.mem_map.mpr ⟨x, hxl, hx⟩
          · exact h
      · rw [if_neg hc]
        simp only [keysOf, List.map_cons, List.mem_cons] at ih ⊢
        rw [ih]

/-- C2 (amended): every write with the trades configuration that actually
persists (non-empty batch) leaves the dataset sorted by
`(timestamp, agg_trade_id)`, with pairwise-distinct `agg_trade_id`s provided
the dataset-creating first batch had pairwise-distinct ids (later writes
restore uniqueness unconditionally); `read` then returns exactly these
sorted rows. -/
theorem write_dataset_invariant (s : Option (List Trade)) (df : List Trade)
    (hne : df ≠ [])
    (hfirst : s = none → (keysOf df).Nodup) :
    ∃ ds, writeTrades s df = some ds ∧ (keysOf ds).Nodup ∧
      List.Sorted tradeLe ds ∧ readTrades (writeTrades s df) = ds := by
  have hnotempty : df.isEmpty = false := by
    cases df with
    | nil => exact absurd rfl hne
    | cons a t => rfl
  cases s with
  | some existing =>
      refine ⟨sortTrades (dropDupKeepLast (existing ++ df)), ?_, ?_, ?_, ?_⟩
      · simp [writeTrades, writeTradesFull, hnotempty]
      · exact ((keysOf_perm (sortTrades_perm _)).nodup_iff).mpr
          (nodup_keys_dropDupKeepLast _)
      · exact sortTrades_sorted _
      · simp [writeTrades, writeTradesFull, hnotempty, readTrades]
  | none =>
      refine ⟨sortTrades df, ?_, ?_, ?_, ?_⟩
      · simp [writeTrades, writeTradesFull, hnotempty]
      · exact ((keysOf_perm (sortTrades_perm _)).nodup_iff).mpr (hfirst rfl)
      · exact sortTrades_sorted _
      · simp [writeTrades, writeTradesFull, hnotempty, readTrades]

/-- Two distinct row versions sharing `agg_trade_id = 7`. -/
def dupA : Trade := ⟨7, 10, 1⟩

def dupB : Trade := ⟨7, 11, 2⟩

/-- C2 counterexample: the dataset-creating first write performs no
deduplication, so a first batch with a repeated `agg_trade_id` is stored
with that id occurring twice. -/
theorem write_dataset_invariant_counterexample :
    readTrades (writeTrades none [dupA, dupB]) = [dupA, dupB] ∧
    (keysOf (readTrades (writeTrades none [dupA, dupB]))).count 7 = 2 := by
  decide

/-- Witness for the amended C2 at a concrete store and batch. -/
theorem write_dataset_invariant_witness :
    ([sampleT2] : List Trade) ≠ [] ∧
    ∃ ds, writeTrades (some [sampleT1]) [sampleT2] = some ds ∧ (keysOf ds).Nodup ∧
      List.Sorted tradeLe ds ∧ readTrades (writeTrades (some [sampleT1]) [sampleT2]) = ds :=
  ⟨by decide, write_dataset_invariant (some [sampleT1]) [sampleT2] (by decide)
    (fun h => by cases h)⟩

/-- C1: writing batch `b1` then batch `b2` (sharing some ids or not) to an
initially absent trades dataset yields a dataset in which every
`agg_trade_id` of `b1 ++ b2` occurs exactly once, and every row of `b2` is
stored as written — so for each overlapping id the stored row is the `b2`
version, the write that occurred last. -/
theorem merge_monotonic (b1 b2 : List Trade)
    (h1 : b1 ≠ []) (h2 : b2 ≠ []) (hnd2 : (keysOf b2).Nodup) :
    ∃ ds, writeTrades (writeTrades none b1) b2 = some ds ∧
      (keysOf ds).Nodup ∧
      (∀ k, k ∈ keysOf (b1 ++ b2) → ds.countP (fun x => x.aggTradeId == k) = 1) ∧
      (∀ r ∈ b2, r ∈ ds) := by
  have hne1 : b1.isEmpty = false := by
    cases b1 with
    | nil => exact absurd rfl h1
    | cons a t => rfl
  have hne2 : b2.isEmpty = false := by
    cases b2 with
    | nil => exact absurd rfl h2
    | cons a t => rfl
  have hs1 : writeTrades none b1 = some (sortTrades b1) := by
    simp [writeTrades, writeTradesFull, hne1]
  refine ⟨sortTrades (dropDupKeepLast (sortTrades b1 ++ b2)), ?_, ?_, ?_, ?_⟩
  · rw [hs1]
    simp [writeTrades, writeTradesFull, hne2]
  · exact ((keysOf_perm (sortTrades_perm _)).nodup_iff).mpr
      (nodup_keys_dropDupKeepLast _)
  · intro k hk
    have hperm := sortTrades_perm (dropDupKeepLast (sortTrades b1 ++ b2))
    rw [hperm.countP_eq]
    apply countP_key_eq_one (nodup_keys_dropDupKeepLast _)
    rw [mem_keys_dropDupKeepLast, keysOf_append]
    rw [keysOf_append] at hk
    rcases List.mem_append.mp hk with hk1 | hk2
    · exact List.mem_append.mpr
        (Or.inl (((keysOf_perm (sortTrades_perm b1)).mem_iff).mpr hk1))
    · exact List.mem_append.mpr (Or.inr hk2)
  · intro r hr
    apply (sortTrades_perm _).mem_iff.mpr
    rw [mem_dropDupKeepLast_iff, List.filter_append, List.getLast?_append,
      getLast_filter_of_mem b2 r hnd2 hr]
    rfl

/-- Rows for the C1 witness: id 2 is written in both batches, with the
second write carrying a corrected price. -/
def m1 : Trade := ⟨1, 100, 10⟩

def m2old : Trade := ⟨2, 110, 20⟩

def m2new : Trade := ⟨2, 110, 21⟩

def m3 : Trade := ⟨3, 120, 30⟩

/-- Witness for C1 at concrete overlapping batches. -/
theorem merge_monotonic_witness :
    ([m1, m2old] : List Trade) ≠ [] ∧ ([m2new, m3] : List Trade) ≠ [] ∧
    (keysOf [m2new, m3]).Nodup ∧
    ∃ ds, writeTrades (writeTrades none [m1, m2old]) [m2new, m3] = some ds ∧
      (keysOf ds).Nodup ∧
      (∀ k, k ∈ keysOf ([m1, m2old] ++ [m2new, m3]) →
        ds.countP (fun x => x.aggTradeId == k) = 1) ∧
      (∀ r ∈ ([m2new, m3] : List Trade), r ∈ ds) :=
  ⟨by decide, by decide, by decide,
   merge_monotonic [m1, m2old] [m2new, m3] (by decide) (by decide) (by decide)⟩

/-- A list whose keys are already pairwise distinct is unchanged by dedup. -/
theorem dropDupKeepLast_of_nodup_keys {l : List Trade} (h : (keysOf l).Nodup) :
    dropDupKeepLast l = l := by
  induction l with
  | nil => rfl
  | cons a l ih =>
      simp only [keysOf, List.map_cons, List.nodup_cons] at h
      unfold dropDupKeepLast
      have hc : l.any (fun x => x.aggTradeId == a.aggTradeId) = false := by
        rw [List.any_eq_false]
        intro x hx
        simp only [beq_iff_eq]
        intro he
        exact h.1 (List.mem_map.mpr ⟨x, hx, he⟩)
      rw [if_neg (by simp [hc])]
      rw [ih h.2]

/-- Replacing the left part of a merge by any key-distinct list with the same
rows does not change which rows survive `keep='last'` dedup: rows whose key
reappears in `df` are superseded by `df`'s last version either way. -/
theorem mem_dropDup_append_congr {a b df : List Trade}
    (hnda : (keysOf a).Nodup)
    (hab : ∀ r : Trade, r ∈ a ↔ r ∈ dropDupKeepLast (b ++ df)) :
    ∀ r : Trade, r ∈ dropDupKeepLast (a ++ df) ↔ r ∈ dropDupKeepLast (b ++ df) := by
  intro r
  by_cases hk : r.aggTradeId ∈ keysOf df
  · simp only [keysOf] at hk
    obtain ⟨x, hx, hkey⟩ := List.mem_map.mp hk
    have hfil : df.filter (fun x => x.aggTradeId == r.aggTradeId) ≠ [] :=
      List.ne_nil_of_mem (List.mem_filter.mpr ⟨hx, by simp [hkey]⟩)
    obtain ⟨y, hy⟩ : ∃ y, (df.filter (fun x => x.aggTradeId == r.aggTradeId)).getLast? = some y :=
      ⟨_, List.getLast?_eq_getLast_of_ne_nil hfil⟩
    rw [mem_dropDupKeepLast_iff, List.filter_append, List.getLast?_append, hy,
      mem_dropDupKeepLast_iff, List.filter_append, List.getLast?_append, hy]
    exact Iff.rfl
  · have hfil : df.filter (fun x => x.aggTradeId == r.aggTradeId) = [] := by
      rw [List.filter_eq_nil_iff]
      intro x hx
      simp only [beq_iff_eq]
      intro he
      exact hk (by simpa [keysOf] using List.mem_map.mpr ⟨x, hx, he⟩)
    rw [mem_dropDupKeepLast_iff, List.filter_append, List.getLast?_append, hfil]
    constructor
    · intro h
      exact (hab r).mp ((mem_iff_getLast_filter hnda).mpr h)
    · intro h
      exact (mem_iff_getLast_filter hnda).mp ((hab r).mpr h)

theorem dropDup_append_perm {a b df : List Trade}
    (hnda : (keysOf a).Nodup)
    (hab : ∀ r : Trade, r ∈ a ↔ r ∈ dropDupKeepLast (b ++ df)) :
    (dropDupKeepLast (a ++ df)).Perm (dropDupKeepLast (b ++ df)) :=
  (List.perm_ext_iff_of_nodup
    ((nodup_keys_dropDupKeepLast _).of_map)
    ((nodup_keys_dropDupKeepLast _).of_map)).mpr
    (mem_dropDup_append_congr hnda hab)

/-- Equality of dataset file states up to row order: both absent, or both
present with permuted rows (same row multiset, hence same row set and
count). -/
def OptPerm : Option (List Trade) → Option (List Trade) → Prop
  | none, none => True
  | some l1, some l2 => l1.Perm l2
  | _, _ => False

/-- C7 (amended): `write(B); write(B)` leaves the same dataset (same row set
and row count) as `write(B)`, provided `B` has pairwise-distinct
`agg_trade_id`s whenever the first of the two writes creates the dataset;
for writes against an existing dataset this holds for every batch. -/
theorem write_idempotent (s : Option (List Trade)) (df : List Trade)
    (hfirst : s = none → (keysOf df).Nodup) :
    OptPerm (writeTrades (writeTrades s df) df) (writeTrades s df) := by
  by_cases hdf : df = []
  · subst hdf
    have h : ∀ t : Option (List Trade), writeTrades t [] = t := fun t => rfl
    rw [h, h]
    cases s with
    | none => trivial
    | some l => exact List.Perm.refl l
  · have hnotempty : df.isEmpty = false := by
      cases df with
      | nil => exact absurd rfl hdf
      | cons a t => rfl
    cases s with
    | none =>
        have hnd := hfirst rfl
        have hs1 : writeTrades none df = some (sortTrades df) := by
          simp [writeTrades, writeTradesFull, hnotempty]
        rw [hs1]
        have hs2 : writeTrades (some (sortTrades df)) df =
            some (sortTrades (dropDupKeepLast (sortTrades df ++ df))) := by
          simp [writeTrades, writeTradesFull, hnotempty]
        rw [hs2]
        have hdd : dropDupKeepLast df = df := dropDupKeepLast_of_nodup_keys hnd
        have hperm : (dropDupKeepLast (sortTrades df ++ df)).Perm
            (dropDupKeepLast ([] ++ df)) := by
          apply dropDup_append_perm
          · exact ((keysOf_perm (sortTrades_perm df)).nodup_iff).mpr hnd
          · intro r
            rw [List.nil_append, hdd]
            exact (sortTrades_perm df).mem_iff
        rw [List.nil_append, hdd] at hperm
        exact (sortTrades_perm _).trans (hperm.trans (sortTrades_perm df).symm)
    | some p =>
        have hs1 : writeTrades (some p) df =
            some (sortTrades (dropDupKeepLast (p ++ df))) := by
          simp [writeTrades, writeTradesFull, hnotempty]
        rw [hs1]
        have hs2 : writeTrades (some (sortTrades (dropDupKeepLast (p ++ df)))) df =
            some (sortTrades (dropDupKeepLast
              (sortTrades (dropDupKeepLast (p ++ df)) ++ df))) := by
          simp [writeTrades, writeTradesFull, hnotempty]
        rw [hs2]
        have hperm : (dropDupKeepLast (sortTrades (dropDupKeepLast (p ++ df)) ++ df)).Perm
            (dropDupKeepLast (p ++ df)) := by
          apply dropDup_append_perm
          · exact ((keysOf_perm (sortTrades_perm _)).nodup_iff).mpr
              (nodup_keys_dropDupKeepLast _)
          · intro r
            exact (sortTrades_perm _).mem_iff
        exact (sortTrades_perm _).trans (hperm.trans (sortTrades_perm _).symm)

/-- C7 counterexample: against an absent dataset, writing a batch whose two
rows share `agg_trade_id = 7` once stores both rows (first write does not
dedup), while writing it twice leaves a single row — different row set and
row count. -/
theorem write_idempotent_counterexample :
    writeTrades none [dupA, dupB] = some [dupA, dupB] ∧
    writeTrades (writeTrades none [dupA, dupB]) [dupA, dupB] = some [dupB] := by
  decide

/-- Witness for the amended C7 on an existing dataset. -/
theorem write_idempotent_witness :
    ((some [m1] : Option (List Trade)) = none → (keysOf [m2old]).Nodup) ∧
    OptPerm (writeTrades (writeTrades (some [m1]) [m2old]) [m2old])
      (writeTrades (some [m1]) [m2old]) :=
  ⟨fun h => Option.noConfusion h,
   write_idempotent (some [m1]) [m2old] (fun h => Option.noConfusion h)⟩

/-! ## Empty-batch handling -/

/-- C8 (amended): a zero-row batch makes `StorageEngine.write` a non-fatal
no-op: the function returns Python `None` (the code defines no
`EmptyBatchError` and raises nothing), nothing is written, and any existing
dataset file is left unchanged. -/
theorem empty_batch_noop (store : Option (List Trade)) :
    writeTradesFull store [] = (store, WriteOutcome.returnedNone) :=
  rfl

/-- C8 counterexample: at a concrete existing dataset, the empty-batch write
returns `None` (it does not fail with an `EmptyBatchError` — no such
exception type exists in the code) while leaving the dataset unchanged. -/
theorem empty_batch_counterexample :
    writeTradesFull (some [sampleT1]) [] = (some [sampleT1], WriteOutcome.returnedNone) :=
  rfl

/-! ## Filesystem-level behaviour of the dataset rewrite -/

/-- State of one path of the storage directory. -/
inductive FileState where
  | absent
  | committed (rows : List Trade)
  | torn            -- truncated / partially written: unreadable as parquet
deriving DecidableEq, Repr

/-- A filesystem mutation the write path can perform. -/
inductive FsOp where
  | writeFile (path : String) (rows : List Trade)  -- open `path`, truncate, stream rows
  | rename (src dst : String)                      -- atomic rename
deriving DecidableEq, Repr

/-- `self.base_path / data_type / f"{symbol}.parquet"`. -/
def mainPath (dataType symbol : String) : String :=
  dataType ++ "/" ++ symbol ++ ".parquet"

/-- The filesystem operations `StorageEngine.write` performs after merging
an existing dataset: a single `df_to_write.to_parquet(filepath)` directly on
the committed dataset path — no temp file and no rename appear anywhere in
the write path (engine.py lines 95-100). -/
def writeFsOps (dataType symbol : String) (rows : List Trade) : List FsOp :=
  [FsOp.writeFile (mainPath dataType symbol) rows]

def applyOp (op : FsOp) (fs : String → FileState) : String → FileState :=
  match op with
  | FsOp.writeFile p rows => fun q => if q = p then FileState.committed rows else fs q
  | FsOp.rename src dst => fun q =>
      if q = dst then fs src else if q = src then FileState.absent else fs q

/-- Interrupting an operation mid-execution: a direct file write that stops
midway leaves its target truncated (torn); a rename is atomic, so an
interrupted rename leaves the filesystem unchanged. -/
def interruptOp (op : FsOp) (fs : String → FileState) : String → FileState :=
  match op with
  | FsOp.writeFile p _ => fun q => if q = p then FileState.torn else fs q
  | FsOp.rename _ _ => fs

def runOps (ops : List FsOp) (fs : String → FileState) : String → FileState :=
  ops.foldl (fun acc op => applyOp op acc) fs

/-- Run the first `k` operations to completion, then fail in the middle of
the next one (if any). -/
def runInterrupted (ops : List FsOp) (k : Nat) (fs : String → FileState) :
    String → FileState :=
  match ops.drop k with
  | [] => runOps ops fs
  | op :: _ => interruptOp op (runOps (ops.take k) fs)

/-- A storage directory whose only file is a committed BTCUSDT trades
dataset. -/
def oldStore : String → FileState := fun q =>
  if q = mainPath "trades" "BTCUSDT" then FileState.committed [m1, m2old]
  else FileState.absent

/-- C3: the claimed temp-file-then-rename semantics is absent.  The write
path's only filesystem operation targets the committed dataset path
directly, so an I/O failure in the middle of that operation leaves the
previously committed dataset file torn — neither the old nor the new
contents. -/
theorem write_interruption_corrupts_dataset :
    runInterrupted (writeFsOps "trades" "BTCUSDT" [m1, m2old, m3]) 0 oldStore
      (mainPath "trades" "BTCUSDT") = FileState.torn ∧
    oldStore (mainPath "trades" "BTCUSDT") = FileState.committed [m1, m2old] ∧
    FileState.torn ≠ FileState.committed [m1, m2old] ∧
    FileState.torn ≠ FileState.committed [m1, m2old, m3] := by
  refine ⟨by decide, by decide, by decide, by decide⟩

/-! ## Cursor bootstrap and fetch-parameter construction -/

/-- `df['agg_trade_id'].max()` (the source only evaluates it on non-empty
frames; the `[]` case is an unused default). -/
def maxAggId : List Trade → Int
  | [] => 0
  | r :: rs => (rs.map Trade.aggTradeId).foldl max r.aggTradeId

/-- `StorageEngine.get_latest_timestamp`: `none` when the file is missing or
the frame is empty, otherwise the maximum timestamp. -/
def latestTimestamp (store : Option (List Trade)) : Option Int :=
  match store with
  | none => none
  | some [] => none
  | some (r :: rs) => some ((rs.map Trade.timestamp).foldl max r.timestamp)

/-- The cursor determination at the top of `TradesCollector.collect_symbol`:
take the in-memory `last_trade_ids` entry if present; otherwise, when
`get_latest_timestamp` returns a (truthy) timestamp, read the dataset and
take the maximum stored `agg_trade_id` of a non-empty frame. -/
def bootstrapCursor (mem : Option Int) (store : Option (List Trade)) : Option Int :=
  match mem with
  | some i => some i
  | none =>
      match latestTimestamp store with
      | none => none
      | some _ =>
          if (readTrades store).isEmpty then none
          else some (maxAggId (readTrades store))

/-- The `fromId` parameter `TradesCollector._fetch_trades` sends: absent when
no cursor, otherwise `from_id + 1` (inclusive API cursor made exclusive). -/
def sentFromId (cursor : Option Int) : Option Int :=
  match cursor with
  | none => none
  | some i => some (i + 1)

/-- C5: a collector with no in-memory cursor bootstraps `from_id = X`, the
maximum stored `agg_trade_id`; the fetch then sends `fromId = X + 1`, so no
trade id `≤ X` satisfies the requested (inclusive) lower bound — ids `X` and
lower are never re-requested. -/
theorem cursor_resumption (stored : List Trade) (X : Int)
    (hne : stored ≠ []) (hmax : maxAggId stored = X) :
    bootstrapCursor none (some stored) = some X ∧
    sentFromId (some X) = some (X + 1) ∧
    ∀ i : Int, i ≤ X → ¬(X + 1 ≤ i) := by
  refine ⟨?_, rfl, by intro i hi; omega⟩
  cases stored with
  | nil => exact absurd rfl hne
  | cons r rs =>
      simp only [bootstrapCursor, latestTimestamp, readTrades, Option.getD_some,
        List.isEmpty_cons, hmax]
      rw [← hmax]
      rfl

/-- Witness for C5 at a concrete dataset with maximum id 2. -/
theorem cursor_resumption_witness :
    ([m1, m2old] : List Trade) ≠ [] ∧ maxAggId [m1, m2old] = 2 ∧
    bootstrapCursor none (some [m1, m2old]) = some 2 ∧
    sentFromId (some 2) = some (2 + 1) ∧ ¬((2 : Int) + 1 ≤ 2) := by
  have h := cursor_resumption [m1, m2old] 2 (by decide) (by decide)
  exact ⟨by decide, by decide, h.1, h.2.1, h.2.2 2 (by omega)⟩

/-! ## The pagination loop of `collect_symbol` -/

/-- Result of one poll cycle: number of API requests actually issued
(calls to `_fetch_trades`), the loop's `request_count` (incremented once per
non-empty page), and the accumulated trades. -/
structure CollectResult where
  fetches : Int
  requests : Int
  trades : List Trade
deriving DecidableEq, Repr

/-- The Python guard `if max_requests and request_count >= max_requests`:
`None` and `0` are falsy, every other integer (including negatives) is
truthy. -/
def guardBreak (maxRequests : Option Int) (requestCount : Int) : Bool :=
  match maxRequests with
  | none => false
  | some m => if m = 0 then false else decide (m ≤ requestCount)

/-- The `while True` loop of `TradesCollector.collect_symbol`, driven by a
fetch oracle standing for `_fetch_trades(symbol, from_id)` (already
parsed).  `fuel` bounds the number of iterations modelled; every statement
proved below holds for all fuel.  Per iteration: break on the request
guard; issue a fetch; break on an empty page (without incrementing
`request_count`); otherwise advance the cursor to the page's maximum id,
increment `request_count`, append the page, and break when the page was
short of 1000 rows. -/
def collectLoop (fetch : Option Int → List Trade) (maxRequests : Option Int) :
    Nat → Option Int → Int → Int → List Trade → CollectResult
  | 0, _, requestCount, fetchCount, acc => ⟨fetchCount, requestCount, acc⟩
  | fuel + 1, fromId, requestCount, fetchCount, acc =>
      if guardBreak maxRequests requestCount then ⟨fetchCount, requestCount, acc⟩
      else
        if (fetch fromId).isEmpty then ⟨fetchCount + 1, requestCount, acc⟩
        else if (fetch fromId).length < 1000 then
          ⟨fetchCount + 1, requestCount + 1, acc ++ fetch fromId⟩
        else
          collectLoop fetch maxRequests fuel (some (maxAggId (fetch fromId)))
            (requestCount + 1) (fetchCount + 1) (acc ++ fetch fromId)

theorem collectLoop_zero_eq_none (fetch : Option Int → List Trade) :
    ∀ (fuel : Nat) (fromId : Option Int) (rc fc : Int) (acc : List Trade),
      collectLoop fetch (some 0) fuel fromId rc fc acc =
        collectLoop fetch none fuel fromId rc fc acc := by
  intro fuel
  induction fuel with
  | zero =>
      intro fromId rc fc acc
      rfl
  | succ fuel ih =>
      intro fromId rc fc acc
      show (if guardBreak (some 0) rc then _ else _) = (if guardBreak none rc then _ else _)
      rw [show guardBreak (some 0) rc = false from rfl,
        show guardBreak none rc = false from rfl]
      simp only [Bool.false_eq_true, if_false]
      by_cases h1 : (fetch fromId).isEmpty = true
      · rw [if_pos h1, if_pos h1]
      · rw [if_neg h1, if_neg h1]
        by_cases h2 : (fetch fromId).length < 1000
        · rw [if_pos h2, if_pos h2]
        · rw [if_neg h2, if_neg h2]
          exact ih _ _ _ _

theorem collectLoop_fetches_ge (fetch : Option Int → List Trade)
    (maxRequests : Option Int) :
    ∀ (fuel : Nat) (fromId : Option Int) (rc fc : Int) (acc : List Trade),
      fc ≤ (collectLoop fetch maxRequests fuel fromId rc fc acc).fetches := by
  intro fuel
  induction fuel with
  | zero =>
      intro fromId rc fc acc
      exact le_refl fc
  | succ fuel ih =>
      intro fromId rc fc acc
      simp only [collectLoop]
      by_cases hg : guardBreak maxRequests rc = true
      · rw [if_pos hg]
      · rw [if_neg hg]
        by_cases h1 : (fetch fromId).isEmpty = true
        · rw [if_pos h1]
          show fc ≤ fc + 1
          omega
        · rw [if_neg h1]
          by_cases h2 : (fetch fromId).length < 1000
          · rw [if_pos h2]
            show fc ≤ fc + 1
            omega
          · rw [if_neg h2]
            exact le_trans (by omega) (ih _ _ _ _)

theorem collectLoop_fetches_le (fetch : Option Int → List Trade) (n : Int)
    (hn : 0 < n) :
    ∀ (fuel : Nat) (fromId : Option Int) (rc fc : Int) (acc : List Trade),
      (collectLoop fetch (some n) fuel fromId rc fc acc).fetches ≤
        fc + max (n - rc) 0 := by
  intro fuel
  induction fuel with
  | zero =>
      intro fromId rc fc acc
      show fc ≤ fc + max (n - rc) 0
      omega
  | succ fuel ih =>
      intro fromId rc fc acc
      simp only [collectLoop]
      by_cases hg : guardBreak (some n) rc = true
      · rw [if_pos hg]
        show fc ≤ fc + max (n - rc) 0
        omega
      · rw [if_neg hg]
        have hrc : rc < n := by
          simp only [guardBreak] at hg
          rw [if_neg (by omega)] at hg
          simpa using hg
        by_cases h1 : (fetch fromId).isEmpty = true
        · rw [if_pos h1]
          show fc + 1 ≤ fc + max (n - rc) 0
          omega
        · rw [if_neg h1]
          by_cases h2 : (fetch fromId).length < 1000
          · rw [if_pos h2]
            show fc + 1 ≤ fc + max (n - rc) 0
            omega
          · rw [if_neg h2]
            exact le_trans (ih _ _ _ _) (by omega)

/-- C9: because the break guard tests Python truthiness of `max_requests`,
passing `0` behaves exactly like `None` (unlimited) — in particular at least
one fetch is still issued — while every positive bound `n` caps the cycle at
`n` fetch requests. -/
theorem max_requests_zero_unlimited (fetch : Option Int → List Trade)
    (fuel : Nat) (fromId : Option Int) (n : Int) (hn : 0 < n) :
    collectLoop fetch (some 0) fuel fromId 0 0 [] =
      collectLoop fetch none fuel fromId 0 0 [] ∧
    (1 ≤ fuel → 1 ≤ (collectLoop fetch (some 0) fuel fromId 0 0 []).fetches) ∧
    (collectLoop fetch (some n) fuel fromId 0 0 []).fetches ≤ n := by
  refine ⟨collectLoop_zero_eq_none fetch fuel fromId 0 0 [], ?_, ?_⟩
  · intro hfuel
    obtain ⟨f, rfl⟩ : ∃ f, fuel = f + 1 := ⟨fuel - 1, by omega⟩
    simp only [collectLoop]
    rw [show guardBreak (some 0) 0 = false from rfl]
    simp only [Bool.false_eq_true, if_false]
    by_cases h1 : (fetch fromId).isEmpty = true
    · rw [if_pos h1]
      exact le_refl 1
    · rw [if_neg h1]
      by_cases h2 : (fetch fromId).length < 1000
      · rw [if_pos h2]
        exact le_refl 1
      · rw [if_neg h2]
        exact collectLoop_fetches_ge fetch (some 0) f _ _ 1 _
  · exact le_trans (collectLoop_fetches_le fetch n hn fuel fromId 0 0 []) (by omega)

/-- Witness for C9 with a one-page oracle, fuel 1 and bound 1. -/
theorem max_requests_zero_unlimited_witness :
    (0 : Int) < 1 ∧
    collectLoop (fun _ => [sampleT1]) (some 0) 1 none 0 0 [] =
      collectLoop (fun _ => [sampleT1]) none 1 none 0 0 [] ∧
    1 ≤ (collectLoop (fun _ => [sampleT1]) (some 0) 1 none 0 0 []).fetches ∧
    (collectLoop (fun _ => [sampleT1]) (some 1) 1 none 0 0 []).fetches ≤ 1 := by
  have h := max_requests_zero_unlimited (fun _ => [sampleT1]) 1 none 1 (by omega)
  exact ⟨by omega, h.1, h.2.1 (by omega), h.2.2⟩

/-! ## Order-book level aggregation (`OrderBookCollector._aggregate_levels`)

Raw levels are `(price, qty)` pairs; prices and quantities are modelled as
exact rationals standing for the parsed float values.  A Python dict in
insertion order is an association list. -/

/-- `(price // tick_size) * tick_size`: the bucket price of a raw level. -/
def bucketOf (tick p : ℚ) : ℚ :=
  (⌊p / tick⌋ : ℚ) * tick

/-- `aggregated[level] = aggregated.get(level, 0) + qty` on an
insertion-ordered dict: update the existing slot or append a new key. -/
def addToBucket : List (ℚ × ℚ) → ℚ → ℚ → List (ℚ × ℚ)
  | [], k, q => [(k, q)]
  | (k2, q2) :: rest, k, q =>
      if k2 = k then (k2, q2 + q) :: rest
      else (k2, q2) :: addToBucket rest k q

/-- The bucket-accumulation loop over the raw levels. -/
def aggregateBuckets (tick : ℚ) (raw : List (ℚ × ℚ)) : List (ℚ × ℚ) :=
  raw.foldl (fun m pq => addToBucket m (bucketOf tick pq.1) pq.2) []

/-- Total quantity of the raw levels falling into bucket `k`. -/
def bucketSum (tick : ℚ) (raw : List (ℚ × ℚ)) (k : ℚ) : ℚ :=
  ((raw.filter (fun pq => bucketOf tick pq.1 == k)).map Prod.snd).sum

/-- Python tuple comparison on `(price, qty)` pairs, as used by
`sorted(aggregated.items())`. -/
def pairLe (a b : ℚ × ℚ) : Prop :=
  a.1 < b.1 ∨ (a.1 = b.1 ∧ a.2 ≤ b.2)

/-- The comparison realised by `sorted(..., reverse=True)`. -/
def pairGe (a b : ℚ × ℚ) : Prop :=
  pairLe b a

instance : DecidableRel pairLe := fun a b => by
  unfold pairLe; exact inferInstance

instance : DecidableRel pairGe := fun a b => by
  unfold pairGe pairLe; exact inferInstance

instance : IsTotal (ℚ × ℚ) pairLe := ⟨by
  intro a b
  unfold pairLe
  rcases lt_trichotomy a.1 b.1 with h | h | h
  · exact Or.inl (Or.inl h)
  · rcases le_total a.2 b.2 with hq | hq
    · exact Or.inl (Or.inr ⟨h, hq⟩)
    · exact Or.inr (Or.inr ⟨h.symm, hq⟩)
  · exact Or.inr (Or.inl h)⟩

instance : IsTrans (ℚ × ℚ) pairLe := ⟨by
  intro a b c hab hbc
  unfold pairLe at hab hbc ⊢
  rcases hab with h1 | h1
  · rcases hbc with h2 | h2
    · exact Or.inl (h1.trans h2)
    · exact Or.inl (lt_of_lt_of_eq h1 h2.1)
  · rcases hbc with h2 | h2
    · exact Or.inl (lt_of_eq_of_lt h1.1 h2)
    · exact Or.inr ⟨h1.1.trans h2.1, h1.2.trans h2.2⟩⟩

instance : IsTotal (ℚ × ℚ) pairGe :=
  ⟨fun a b => total_of pairLe b a⟩

instance : IsTrans (ℚ × ℚ) pairGe :=
  ⟨fun _ _ _ hab hbc => trans_of pairLe hbc hab⟩

/-- One aggregated output level with its cumulative metrics. -/
structure AggLevel where
  price : ℚ
  qty : ℚ
  cum_qty : ℚ
  cum_usd : ℚ
deriving DecidableEq, Repr

/-- The cumulative loop: running totals of quantity and notional. -/
def cumulate : ℚ → ℚ → List (ℚ × ℚ) → List AggLevel
  | _, _, [] => []
  | cq, cu, (k, q) :: rest =>
      ⟨k, q, cq + q, cu + k * q⟩ :: cumulate (cq + q) (cu + k * q) rest

/-- `OrderBookCollector._aggregate_levels(raw_levels, tick_size, is_bid,
num_levels)`: bucket, sort (descending for bids, ascending for asks), keep
the top `num_levels`, then attach cumulative metrics. -/
def aggregateLevels (raw : List (ℚ × ℚ)) (tick : ℚ) (isBid : Bool)
    (numLevels : Nat) : List AggLevel :=
  cumulate 0 0
    (if isBid then (List.insertionSort pairGe (aggregateBuckets tick raw)).take numLevels
     else (List.insertionSort pairLe (aggregateBuckets tick raw)).take numLevels)

/-- Dict lookup on the association list (first slot with the key). -/
def qLookup : ℚ → List (ℚ × ℚ) → Option ℚ
  | _, [] => none
  | k, (k2, q2) :: rest => if k2 = k then some q2 else qLookup k rest

theorem qLookup_addToBucket_same (m : List (ℚ × ℚ)) (k q : ℚ) :
    qLookup k (addToBucket m k q) = some ((qLookup k m).getD 0 + q) := by
  induction m with
  | nil => simp [addToBucket, qLookup]
  | cons kv rest ih =>
      obtain ⟨k2, q2⟩ := kv
      by_cases h : k2 = k
      · subst h
        unfold addToBucket
        rw [if_pos rfl]
        unfold qLookup
        rw [if_pos rfl, if_pos rfl]
        simp
      · unfold addToBucket
        rw [if_neg h]
        unfold qLookup
        rw [if_neg h, if_neg h]
        exact ih

theorem qLookup_addToBucket_other (m : List (ℚ × ℚ)) {k2 k : ℚ} (q : ℚ)
    (h : k2 ≠ k) :
    qLookup k2 (addToBucket m k q) = qLookup k2 m := by
  induction m with
  | nil => simp [addToBucket, qLookup, Ne.symm h]
  | cons kv rest ih =>
      obtain ⟨k3, q3⟩ := kv
      by_cases h3 : k3 = k
      · subst h3
        unfold addToBucket
        rw [if_pos rfl]
        unfold qLookup
        rw [if_neg (Ne.symm h), if_neg (Ne.symm h)]
      · unfold addToBucket
        rw [if_neg h3]
        unfold qLookup
        by_cases h2 : k3 = k2
        · rw [if_pos h2, if_pos h2]
        · rw [if_neg h2, if_neg h2]
          exact ih

theorem mem_keys_addToBucket {m : List (ℚ × ℚ)} {k2 k q : ℚ} :
    k2 ∈ (addToBucket m k q).map Prod.fst ↔ k2 = k ∨ k2 ∈ m.map Prod.fst := by
  induction m with
  | nil => simp [addToBucket]
  | cons kv rest ih =>
      obtain ⟨k3, q3⟩ := kv
      by_cases h3 : k3 = k
      · subst h3
        unfold addToBucket
        rw [if_pos rfl]
        simp only [List.map_cons, List.mem_cons]
        constructor
        · rintro (rfl | h)
          · exact Or.inl rfl
          · exact Or.inr (Or.inr h)
        · rintro (rfl | rfl | h)
          · exact Or.inl rfl
          · exact Or.inl rfl
          · exact Or.inr h
      · unfold addToBucket
        rw [if_neg h3]
        simp only [List.map_cons, List.mem_cons, ih]
        constructor
        · rintro (rfl | h | h)
          · exact Or.inr (Or.inl rfl)
          · exact Or.inl h
          · exact Or.inr (Or.inr h)
        · rintro (h | rfl | h)
          · exact Or.inr (Or.inl h)
          · exact Or.inl rfl
          · exact Or.inr (Or.inr h)

theorem nodup_keys_addToBucket {m : List (ℚ × ℚ)} (k q : ℚ)
    (h : (m.map Prod.fst).Nodup) :
    ((addToBucket m k q).map Prod.fst).Nodup := by
  induction m with
  | nil => simp [addToBucket]
  | cons kv rest ih =>
      obtain ⟨k3, q3⟩ := kv
      simp only [List.map_cons, List.nodup_cons] at h
      by_cases h3 : k3 = k
      · subst h3
        unfold addToBucket
        rw [if_pos rfl]
        simp only [List.map_cons, List.nodup_cons]
        exact ⟨h.1, h.2⟩
      · unfold addToBucket
        rw [if_neg h3]
        simp only [List.map_cons, List.nodup_cons]
        refine ⟨?_, ih h.2⟩
        intro hmem
        rcases mem_keys_addToBucket.mp hmem with heq | hmem2
        · exact h3 heq
        · exact h.1 hmem2

/-- In a key-distinct association list, membership determines the lookup. -/
theorem qLookup_of_mem {m : List (ℚ × ℚ)} {k q : ℚ}
    (hnd : (m.map Prod.fst).Nodup) (hmem : (k, q) ∈ m) :
    qLookup k m = some q := by
  induction m with
  | nil => cases hmem
  | cons kv rest ih =>
      obtain ⟨k3, q3⟩ := kv
      simp only [List.map_cons, List.nodup_cons] at hnd
      rcases List.mem_cons.mp hmem with heq | hmem2
      · injection heq with h1 h2
        subst h1
        subst h2
        unfold qLookup
        rw [if_pos rfl]
      · have hk : k3 ≠ k := by
          rintro rfl
          exact hnd.1 (List.mem_map.mpr ⟨(k3, q), hmem2, rfl⟩)
        unfold qLookup
        rw [if_neg hk]
        exact ih hnd.2 hmem2

/-- Lookup value after the whole bucket-accumulation fold: the starting
value plus the total quantity the raw levels contribute to bucket `k`. -/
theorem qLookup_foldl (tick : ℚ) :
    ∀ (raw m : List (ℚ × ℚ)) (k : ℚ),
      (qLookup k (raw.foldl (fun m pq => addToBucket m (bucketOf tick pq.1) pq.2) m)).getD 0 =
        (qLookup k m).getD 0 + bucketSum tick raw k := by
  intro raw
  induction raw with
  | nil =>
      intro m k
      simp [bucketSum]
  | cons pq rest ih =>
      intro m k
      obtain ⟨p, q⟩ := pq
      simp only [List.foldl_cons]
      rw [ih]
      by_cases hb : bucketOf tick p = k
      · rw [hb, qLookup_addToBucket_same]
        have hsum : bucketSum tick ((p, q) :: rest) k = q + bucketSum tick rest k := by
          unfold bucketSum
          rw [List.filter_cons_of_pos (by simp [hb])]
          simp
        rw [hsum]
        simp only [Option.getD_some]
        ring
      · rw [qLookup_addToBucket_other _ _ (Ne.symm hb)]
        have hsum : bucketSum tick ((p, q) :: rest) k = bucketSum tick rest k := by
          unfold bucketSum
          rw [List.filter_cons_of_neg (by simp [hb])]
        rw [hsum]

theorem mem_keys_foldl (tick : ℚ) :
    ∀ (raw m : List (ℚ × ℚ)) (k : ℚ),
      (k ∈ (raw.foldl (fun m pq => addToBucket m (bucketOf tick pq.1) pq.2) m).map Prod.fst ↔
        k ∈ m.map Prod.fst ∨ k ∈ raw.map (fun pq => bucketOf tick pq.1)) := by
  intro raw
  induction raw with
  | nil =>
      intro m k
      simp
  | cons pq rest ih =>
      intro m k
      obtain ⟨p, q⟩ := pq
      simp only [List.foldl_cons, List.map_cons, List.mem_cons]
      rw [ih, mem_keys_addToBucket]
      tauto

theorem nodup_keys_foldl (tick : ℚ) :
    ∀ (raw m : List (ℚ × ℚ)), (m.map Prod.fst).Nodup →
      ((raw.foldl (fun m pq => addToBucket m (bucketOf tick pq.1) pq.2) m).map Prod.fst).Nodup := by
  intro raw
  induction raw with
  | nil =>
      intro m h
      exact h
  | cons pq rest ih =>
      intro m h
      exact ih _ (nodup_keys_addToBucket _ _ h)

/-- Every bucket in the aggregation carries the summed quantity of the raw
levels that floor into it. -/
theorem mem_aggregateBuckets_val {tick : ℚ} {raw : List (ℚ × ℚ)} {k q : ℚ}
    (hmem : (k, q) ∈ aggregateBuckets tick raw) :
    q = bucketSum tick raw k := by
  have hnd : ((aggregateBuckets tick raw).map Prod.fst).Nodup :=
    nodup_keys_foldl tick raw [] (by simp)
  have hl := qLookup_of_mem hnd hmem
  have hv := qLookup_foldl tick raw [] k
  unfold aggregateBuckets at hl
  rw [hl] at hv
  simpa [qLookup] using hv

/-- Every bucket price is the floored bucket of some raw level. -/
theorem mem_aggregateBuckets_key {tick : ℚ} {raw : List (ℚ × ℚ)} {k q : ℚ}
    (hmem : (k, q) ∈ aggregateBuckets tick raw) :
    k ∈ raw.map (fun pq => bucketOf tick pq.1) := by
  have hk : k ∈ (aggregateBuckets tick raw).map Prod.fst :=
    List.mem_map.mpr ⟨(k, q), hmem, rfl⟩
  rcases (mem_keys_foldl tick raw [] k).mp hk with h | h
  · simp at h
  · exact h

theorem cumulate_map_price : ∀ (L : List (ℚ × ℚ)) (c u : ℚ),
    (cumulate c u L).map AggLevel.price = L.map Prod.fst := by
  intro L
  induction L with
  | nil =>
      intro c u
      rfl
  | cons kv rest ih =>
      intro c u
      obtain ⟨k, q⟩ := kv
      simp [cumulate, ih]

theorem cumulate_length : ∀ (L : List (ℚ × ℚ)) (c u : ℚ),
    (cumulate c u L).length = L.length := by
  intro L
  induction L with
  | nil =>
      intro c u
      rfl
  | cons kv rest ih =>
      intro c u
      obtain ⟨k, q⟩ := kv
      simp [cumulate, ih]

theorem mem_cumulate : ∀ (L : List (ℚ × ℚ)) (c u : ℚ) (lvl : AggLevel),
    lvl ∈ cumulate c u L → (lvl.price, lvl.qty) ∈ L := by
  intro L
  induction L with
  | nil =>
      intro c u lvl h
      simp [cumulate] at h
  | cons kv rest ih =>
      intro c u lvl h
      obtain ⟨k, q⟩ := kv
      simp only [cumulate] at h
      rcases List.mem_cons.mp h with rfl | h2
      · exact List.mem_cons_self _ _
      · exact List.mem_cons_of_mem _ (ih _ _ _ h2)

/-- The running `cum_qty` at index `i` is the starting total plus the sum of
the first `i + 1` per-level quantities. -/
theorem cumulate_cum_qty : ∀ (L : List (ℚ × ℚ)) (c u : ℚ) (i : Nat)
    (hi : i < (cumulate c u L).length),
    ((cumulate c u L).get ⟨i, hi⟩).cum_qty =
      c + (((cumulate c u L).map AggLevel.qty).take (i + 1)).sum := by
  intro L
  induction L with
  | nil =>
      intro c u i hi
      simp [cumulate] at hi
  | cons kv rest ih =>
      intro c u i hi
      obtain ⟨k, q⟩ := kv
      cases i with
      | zero => simp [cumulate]
      | succ i =>
          simp only [cumulate, List.get_cons_succ, List.map_cons, List.take_succ_cons,
            List.sum_cons]
          rw [ih]
          ring

/-- Core correctness of one sorted side of `_aggregate_levels`, for any
total transitive comparison `r` whose first components embed into `S`. -/
theorem aggregateCore {r : ℚ × ℚ → ℚ × ℚ → Prop} [DecidableRel r]
    [IsTotal (ℚ × ℚ) r] [IsTrans (ℚ × ℚ) r]
    {S : ℚ → ℚ → Prop} (hrS : ∀ a b : ℚ × ℚ, r a b → S a.1 b.1)
    (raw : List (ℚ × ℚ)) (tick : ℚ) (numLevels : Nat) :
    (∀ lvl ∈ cumulate 0 0 ((List.insertionSort r (aggregateBuckets tick raw)).take numLevels),
        lvl.qty = bucketSum tick raw lvl.price ∧
        lvl.price ∈ raw.map (fun pq => bucketOf tick pq.1)) ∧
    (cumulate 0 0 ((List.insertionSort r (aggregateBuckets tick raw)).take numLevels)).length ≤
      numLevels ∧
    List.Sorted S ((cumulate 0 0
      ((List.insertionSort r (aggregateBuckets tick raw)).take numLevels)).map AggLevel.price) ∧
    ∀ (i : Nat) (hi : i < (cumulate 0 0
        ((List.insertionSort r (aggregateBuckets tick raw)).take numLevels)).length),
      ((cumulate 0 0 ((List.insertionSort r (aggregateBuckets tick raw)).take numLevels)).get
          ⟨i, hi⟩).cum_qty =
        (((cumulate 0 0 ((List.insertionSort r (aggregateBuckets tick raw)).take
          numLevels)).map AggLevel.qty).take (i + 1)).sum := by
  refine ⟨?_, ?_, ?_, ?_⟩
  · intro lvl hlvl
    have hmem := mem_cumulate _ _ _ _ hlvl
    have hmem2 : (lvl.price, lvl.qty) ∈ aggregateBuckets tick raw :=
      (List.mem_insertionSort r).mp (List.mem_of_mem_take hmem)
    exact ⟨mem_aggregateBuckets_val hmem2, mem_aggregateBuckets_key hmem2⟩
  · rw [cumulate_length, List.length_take]
    omega
  · rw [cumulate_map_price]
    exact List.Pairwise.map Prod.fst hrS
      (List.Pairwise.sublist (List.take_sublist _ _) (List.sorted_insertionSort r _))
  · intro i hi
    have h := cumulate_cum_qty _ 0 0 i hi
    simpa using h

/-- C6: for fixed raw levels, tick size `T > 0` and `num_levels`,
`_aggregate_levels` assigns each output level the bucket price
`floor(price/T)*T` of some raw level with quantities summed per bucket,
keeps at most `num_levels` buckets ordered descending by price for bids and
ascending for asks, and the `k`-th cumulative quantity is the sum of the
per-level quantities of levels `1..k` in that order. -/
theorem orderbook_aggregation_correct (raw : List (ℚ × ℚ)) (tick : ℚ)
    (isBid : Bool) (numLevels : Nat) (htick : 0 < tick) :
    (∀ lvl ∈ aggregateLevels raw tick isBid numLevels,
        lvl.qty = bucketSum tick raw lvl.price ∧
        lvl.price ∈ raw.map (fun pq => bucketOf tick pq.1)) ∧
    (aggregateLevels raw tick isBid numLevels).length ≤ numLevels ∧
    (isBid = true →
      List.Sorted (fun a b : ℚ => b ≤ a)
        ((aggregateLevels raw tick isBid numLevels).map AggLevel.price)) ∧
    (isBid = false →
      List.Sorted (fun a b : ℚ => a ≤ b)
        ((aggregateLevels raw tick isBid numLevels).map AggLevel.price)) ∧
    ∀ (i : Nat) (hi : i < (aggregateLevels raw tick isBid numLevels).length),
      ((aggregateLevels raw tick isBid numLevels).get ⟨i, hi⟩).cum_qty =
        (((aggregateLevels raw tick isBid numLevels).map AggLevel.qty).take (i + 1)).sum := by
  cases isBid with
  | false =>
      have h := aggregateCore (r := pairLe) (S := fun a b : ℚ => a ≤ b)
        (by
          intro a b hab
          rcases hab with h1 | h1
          · exact le_of_lt h1
          · exact le_of_eq h1.1) raw tick numLevels
      exact ⟨h.1, h.2.1, fun hb => absurd hb (by simp), fun _ => h.2.2.1, h.2.2.2⟩
  | true =>
      have h := aggregateCore (r := pairGe) (S := fun a b : ℚ => b ≤ a)
        (by
          intro a b hab
          rcases hab with h1 | h1
          · exact le_of_lt h1
          · exact le_of_eq h1.1) raw tick numLevels
      exact ⟨h.1, h.2.1, fun _ => h.2.2.1, fun hb => absurd hb (by simp), h.2.2.2⟩

/-- The spec's worked example: raw bids `[[100.3, 2], [100.7, 1], [99.9, 1]]`. -/
def obRaw : List (ℚ × ℚ) := [(1003/10, 2), (1007/10, 1), (999/10, 1)]

/-- Witness for C6 at the spec's worked example (tick size 1, bid side):
the hypothesis `0 < 1` is discharged, the length bound is instantiated, and
the concrete output `[(100, 3, 3, 300), (99, 1, 4, 399)]` confirms bucket
`100` holds summed quantity `2 + 1 = 3` with cumulative quantity 3 at the
top level, then bucket `99` with cumulative quantity 4. -/
theorem orderbook_aggregation_witness :
    (0 : ℚ) < 1 ∧
    (aggregateLevels obRaw 1 true 15).length ≤ 15 ∧
    aggregateLevels obRaw 1 true 15 = [⟨100, 3, 3, 300⟩, ⟨99, 1, 4, 399⟩] :=
  ⟨by norm_num,
   (orderbook_aggregation_correct obRaw 1 true 15 (by norm_num)).2.1,
   by norm_num [aggregateLevels, aggregateBuckets, obRaw, bucketOf, addToBucket,
     cumulate, List.insertionSort, List.orderedInsert, pairGe, pairLe]⟩
